import Mathlib

/- Verification of template_generator.py, a CSV-driven template file
   generator. Python strings are modelled as lists of characters; the
   re.sub calls of the source use patterns built with re.escape, so each
   pattern matches exactly one literal string and re.sub amounts to
   left-to-right non-overlapping literal replacement, with the replacement
   string subject to the escape processing of sre_parse.parse_template. -/

/-- Python strings are modelled by lists of Char. -/
abbrev Str := List Char

/-- Whitespace stripped by Python str.strip (ASCII portion). -/
def pyIsSpace (c : Char) : Bool :=
  c == ' ' || c == '\t' || c == '\n' || c == '\r' || c == '\x0b' || c == '\x0c'

/-- Python str.strip: drop whitespace from both ends. -/
def pyStrip (s : Str) : Str :=
  ((s.dropWhile pyIsSpace).reverse.dropWhile pyIsSpace).reverse

/-- Test whether the first list starts with the second. -/
def startsWithStr : Str → Str → Bool
  | _, [] => true
  | [], _ :: _ => false
  | c :: s, p :: ps => c == p && startsWithStr s ps

/-- Test whether pat occurs as a contiguous substring of the second list. -/
def occursIn (pat : Str) : Str → Bool
  | [] => pat.isEmpty
  | c :: s => startsWithStr (c :: s) pat || occursIn pat s

/-- Python str.endswith, via reversal. -/
def strEndsWith (s suf : Str) : Bool := startsWithStr s.reverse suf.reverse

/-- Fuel-indexed engine for re.sub with a literal pattern: replace the
leftmost occurrence of pat and continue scanning after the inserted
replacement, never re-scanning it. Fuel at least the length of the subject
makes the recursion structural; replaceAll instantiates the fuel and the
lemmas below recover the intended recurrences. -/
def replaceAllF (pat repl : Str) : Nat → Str → Str
  | _, [] => []
  | 0, s => s
  | fuel + 1, c :: s =>
    if startsWithStr (c :: s) pat && !pat.isEmpty then
      repl ++ replaceAllF pat repl fuel (List.drop (pat.length - 1) s)
    else
      c :: replaceAllF pat repl fuel s

/-- Model of re.sub over a literal (re.escape-built) pattern: replace every
left-to-right non-overlapping occurrence of pat in s by repl. -/
def replaceAll (pat repl s : Str) : Str := replaceAllF pat repl s.length s

/-- ASCII letter test (CPython ASCIILETTERS). -/
def isAsciiLetter (c : Char) : Bool := c.isAlpha

/-- Decimal digit test. -/
def isDigitCh (c : Char) : Bool := c.isDigit

/-- Octal digit test. -/
def isOctCh (c : Char) : Bool := c.isDigit && decide (c ≤ '7')

/-- Numeric value of a decimal digit string. -/
def digitsToNat (ds : Str) : Nat := ds.foldl (fun n c => n * 10 + (c.toNat - 48)) 0

/-- Numeric value of an octal digit string. -/
def octToNat (ds : Str) : Nat := ds.foldl (fun n c => n * 8 + (c.toNat - 48)) 0

/-- Known letter escapes of a replacement template (CPython ESCAPES). -/
def escChar (c : Char) : Option Char :=
  if c == 'n' then some '\n'
  else if c == 't' then some '\t'
  else if c == 'r' then some '\r'
  else if c == 'v' then some '\x0b'
  else if c == 'f' then some '\x0c'
  else if c == 'a' then some '\x07'
  else if c == 'b' then some '\x08'
  else none

/-- Fuel-indexed model of CPython sre_parse.parse_template applied to the
replacement string of re.sub, specialised to a pattern with zero capture
groups whose every match is the literal string m (true of the re.escape
built placeholder patterns of the source). Backslash escapes in the
replacement are interpreted: a double backslash yields one backslash,
known letter escapes yield control characters, octal escapes yield the
coded character, group reference 0 yields the matched text m, any other
group reference is invalid since the pattern has no groups, an unknown
ASCII-letter escape is an error, an unknown non-letter escape is kept
verbatim, and a trailing backslash is an error. -/
def expandReplF (m : Str) : Nat → Str → Except String Str
  | _, [] => .ok []
  | 0, _ => .error "out of fuel"
  | fuel + 1, c :: rest =>
    if c == '\\' then
      match rest with
      | [] => .error "bad escape (end of pattern)"
      | e :: rest2 =>
        if e == '\\' then
          (expandReplF m fuel rest2).map (fun t => '\\' :: t)
        else if e == 'g' then
          match rest2 with
          | '<' :: rest3 =>
            let nm := rest3.takeWhile (fun d => !(d == '>'))
            match rest3.drop nm.length with
            | '>' :: rest5 =>
              if nm.isEmpty then .error "missing group name"
              else if nm.all isDigitCh then
                if digitsToNat nm == 0 then
                  (expandReplF m fuel rest5).map (fun t => m ++ t)
                else .error "invalid group reference"
              else .error "bad character in group name"
            | _ => .error "missing end of group name"
          | _ => .error "missing less-than sign"
        else if e == '0' then
          let os := (rest2.takeWhile isOctCh).take 2
          (expandReplF m fuel (rest2.drop os.length)).map
            (fun t => Char.ofNat (octToNat os) :: t)
        else if isDigitCh e then
          match rest2 with
          | d2 :: rest3 =>
            if isDigitCh d2 then
              match rest3 with
              | d3 :: rest4 =>
                if isOctCh e && isOctCh d2 && isOctCh d3 then
                  (expandReplF m fuel rest4).map
                    (fun t => Char.ofNat (octToNat [e, d2, d3] % 256) :: t)
                else .error "invalid group reference"
              | [] => .error "invalid group reference"
            else .error "invalid group reference"
          | [] => .error "invalid group reference"
        else
          match escChar e with
          | some ec => (expandReplF m fuel rest2).map (fun t => ec :: t)
          | none =>
            if isAsciiLetter e then .error "bad escape"
            else (expandReplF m fuel rest2).map (fun t => '\\' :: e :: t)
    else
      (expandReplF m fuel rest).map (fun t => c :: t)

/-- Escape expansion of a replacement string for a zero-group literal
pattern whose matches all equal m. -/
def expandRepl (m s : Str) : Except String Str := expandReplF m s.length s

/-- A value of the row dict produced by csv.DictReader: a string, or None
for a trailing column missing from a short row (restval). -/
abbrev PyVal := Option Str

/-- Python str coercion as applied to row values on line 56 and 61:
identity on strings, the four characters None on the None value. -/
def pyStr : PyVal → Str
  | none => ['N', 'o', 'n', 'e']
  | some v => v

/-- The literal text matched by the pattern of line 55: the variable name
is passed through re.escape, so the pattern matches exactly this string. -/
def dollarPlaceholder (n : Str) : Str := '$' :: '\x7b' :: (n ++ ['\x7d'])

/-- The literal text matched by the pattern of line 60. -/
def bracePlaceholder (n : Str) : Str :=
  '\x7b' :: '\x7b' :: (n ++ ['\x7d', '\x7d'])

/-- One iteration of the first loop of replace_variables (lines 54-56):
result = re.sub(pattern, str(var_value), result) for the dollar form. -/
def subDollar (result : Str) (nv : Str × PyVal) : Except String Str :=
  match expandRepl (dollarPlaceholder nv.1) (pyStr nv.2) with
  | .error e => .error e
  | .ok r => .ok (replaceAll (dollarPlaceholder nv.1) r result)

/-- One iteration of the second loop of replace_variables (lines 59-61),
for the double-brace form. -/
def subBrace (result : Str) (nv : Str × PyVal) : Except String Str :=
  match expandRepl (bracePlaceholder nv.1) (pyStr nv.2) with
  | .error e => .error e
  | .ok r => .ok (replaceAll (bracePlaceholder nv.1) r result)

/-- Model of replace_variables (lines 45-63): run the dollar pass over the
variables in mapping order, then the brace pass; an re.error raised by a
replacement string propagates (the source does not catch it). -/
def replace_variables (template : Str) (vars : List (Str × PyVal)) :
    Except String Str :=
  match vars.foldlM subDollar template with
  | .error e => .error e
  | .ok r => vars.foldlM subBrace r

/-- The dollar pass over all variables, written as plain recursion. -/
def dollarPassAll : List (Str × PyVal) → Str → Except String Str
  | [], t => .ok t
  | nv :: rest, t =>
    match subDollar t nv with
    | .error e => .error e
    | .ok r => dollarPassAll rest r

/-- The brace pass over all variables, written as plain recursion. -/
def bracePassAll : List (Str × PyVal) → Str → Except String Str
  | [], t => .ok t
  | nv :: rest, t =>
    match subBrace t nv with
    | .error e => .error e
    | .ok r => bracePassAll rest r

/-- The two syntax passes run in the opposite order to the source: all
brace passes first, then all dollar passes. -/
def replace_variables_swapped (template : Str)
    (vars : List (Str × PyVal)) : Except String Str :=
  match bracePassAll vars template with
  | .error e => .error e
  | .ok r => dollarPassAll vars r

/-- Index of the last column named col, if any: with duplicate headers the
dict built by csv.DictReader keeps the value of the last occurrence, and
the restval loop overwrites with None any key whose last occurrence lies
beyond the row length. -/
def lastIdxOf : List Str → Str → Option Nat
  | [], _ => none
  | h :: t, col =>
    match lastIdxOf t col with
    | some i => some (i + 1)
    | none => if h = col then some 0 else none

/-- Value of row[col] in the DictReader-produced dict: none when col is
not a header at all; otherwise the field of the last column named col, or
None (restval) when that column index is beyond the row length. -/
def dictGet (headers : List Str) (row : List Str) (col : Str) : Option PyVal :=
  match lastIdxOf headers col with
  | none => none
  | some i => some row[i]?

/-- Keep the first occurrence of every name, preserving order: this is the
key order of a Python dict comprehension over a list with duplicates. -/
def dedupFirstAux (seen : List Str) : List Str → List Str
  | [] => []
  | h :: t =>
    if h ∈ seen then dedupFirstAux seen t
    else h :: dedupFirstAux (h :: seen) t

/-- First-occurrence deduplication of a name list. -/
def dedupFirst (l : List Str) : List Str := dedupFirstAux [] l

/-- The dict comprehension of line 144: keys are the non-first columns in
first-occurrence order, each valued by the row dict lookup. -/
def buildVars (headers : List Str) (row : List Str) : List (Str × PyVal) :=
  (dedupFirst (headers.drop 1)).map
    (fun col => (col, (dictGet headers row col).getD none))

/-- The fixed extension appended by line 141. -/
def txtExt : Str := ['.', 't', 'x', 't']

/-- Lines 139-141: append the .txt extension unless already present. -/
def normalizeExt (s : Str) : Str :=
  if strEndsWith s txtExt = true then s else s ++ txtExt

/-- Outcome of one iteration of the row loop of main (lines 132-150). -/
inductive RowStep where
  | skip : RowStep
  | out : Str → Str → RowStep
  | fatal : String → RowStep

/-- One iteration of the row loop: extract and strip the filename field,
skip with a warning when empty, normalise the extension, build the
variable dict and substitute. An uncaught exception (strip called on a
None filename value, or an re.error from a backslash-bearing value) aborts
the whole run and is modelled as fatal. -/
def rowAction (template : Str) (headers : List Str) (row : List Str) :
    RowStep :=
  match headers with
  | [] => .fatal "no filename column"
  | f :: _ =>
    match dictGet headers row f with
    | none => .fatal "KeyError"
    | some none => .fatal "AttributeError: strip of None"
    | some (some raw) =>
      let name := pyStrip raw
      if name.isEmpty then .skip
      else
        match replace_variables template (buildVars headers row) with
        | .error e => .fatal e
        | .ok content => .out (normalizeExt name) content

/-- Process the rows in order (lines 132-150), collecting the files
written, with the number of skipped-row warnings; write_output catches
its own exceptions, so writes always succeed in this model. -/
def processRows (template : Str) (headers : List Str) :
    List (List Str) → Except String (List (Str × Str) × Nat)
  | [] => .ok ([], 0)
  | row :: rest =>
    match rowAction template headers row with
    | .skip =>
      match processRows template headers rest with
      | .error e => .error e
      | .ok (outs, w) => .ok (outs, w + 1)
    | .out name content =>
      match processRows template headers rest with
      | .error e => .error e
      | .ok (outs, w) => .ok ((name, content) :: outs, w)
    | .fatal e => .error e

/-- Model of main once template and table are loaded (lines 117-153): an
empty header list or empty row list is fatal (sys.exit(1), modelled as
error); otherwise the rows are processed and the completion message of
line 153 reports len(rows) as the generated count. The ok result carries
the files written, the skipped-row warning count, and the reported
generated count. -/
def mainRun (template : Str) (headers : List Str) (rows : List (List Str)) :
    Except String (List (Str × Str) × Nat × Nat) :=
  if headers.isEmpty || rows.isEmpty then
    .error "Error: CSV file is empty or has no data rows."
  else
    match processRows template headers rows with
    | .error e => .error e
    | .ok (outs, w) => .ok (outs, w, rows.length)

/-- A name is clean when it avoids the three placeholder delimiter
characters. -/
def cleanName (n : Str) : Bool :=
  n.all (fun c => !(c == '$' || c == '\x7b' || c == '\x7d'))

/-- A replacement string with no backslash is expanded to itself. -/
def noBackslash (s : Str) : Bool := s.all (fun c => !(c == '\\'))

/-- Every value of the mapping is backslash-free once coerced to string,
so every re.sub call of the engine succeeds. -/
def allValsNoBackslash (vars : List (Str × PyVal)) : Bool :=
  vars.all (fun nv => noBackslash (pyStr nv.2))

/-- Every variable name of the mapping avoids the delimiter characters. -/
def allNamesClean (vars : List (Str × PyVal)) : Bool :=
  vars.all (fun nv => cleanName nv.1)

/-- The pure result of the dollar pass when every replacement succeeds. -/
def dollarChain : List (Str × PyVal) → Str → Str
  | [], t => t
  | (n, v) :: rest, t =>
    dollarChain rest (replaceAll (dollarPlaceholder n) (pyStr v) t)

/-- The pure result of the brace pass when every replacement succeeds. -/
def braceChain : List (Str × PyVal) → Str → Str
  | [], t => t
  | (n, v) :: rest, t =>
    braceChain rest (replaceAll (bracePlaceholder n) (pyStr v) t)

/-- Two strings that can never overlap: occurrences of x and of p inside
any common string occupy disjoint ranges. -/
def NonOverlap (x p : Str) : Prop :=
  ∀ a b c d : Str, a ++ x ++ b = c ++ p ++ d →
    a.length + x.length ≤ c.length ∨ c.length + p.length ≤ a.length

theorem replaceAllF_fuel (pat repl : Str) :
    ∀ f1 f2 s, s.length ≤ f1 → s.length ≤ f2 →
      replaceAllF pat repl f1 s = replaceAllF pat repl f2 s := by
  intro f1
  induction f1 with
  | zero =>
    intro f2 s h1 _
    have hs : s = [] := List.eq_nil_of_length_eq_zero (Nat.le_zero.mp h1)
    subst hs
    cases f2 <;> rfl
  | succ g ih =>
    intro f2 s h1 h2
    cases s with
    | nil => cases f2 <;> rfl
    | cons c s =>
      cases f2 with
      | zero => simp at h2
      | succ g2 =>
        have hs1 : s.length ≤ g := by simp at h1; omega
        have hs2 : s.length ≤ g2 := by simp at h2; omega
        have hd : (List.drop (pat.length - 1) s).length ≤ s.length := by
          simp [List.length_drop]
        simp only [replaceAllF]
        by_cases h : (startsWithStr (c :: s) pat && !pat.isEmpty) = true
        · rw [if_pos h, if_pos h]
          exact congrArg (repl ++ ·)
            (ih _ _ (le_trans hd hs1) (le_trans hd hs2))
        · rw [if_neg h, if_neg h]
          exact congrArg (c :: ·) (ih _ _ hs1 hs2)

theorem replaceAll_nil (pat repl : Str) : replaceAll pat repl [] = [] := rfl

theorem replaceAll_cons_pos (pat repl : Str) (c : Char) (s : Str)
    (h : startsWithStr (c :: s) pat = true) (hp : pat ≠ []) :
    replaceAll pat repl (c :: s) =
      repl ++ replaceAll pat repl (List.drop (pat.length - 1) s) := by
  have hcond : (startsWithStr (c :: s) pat && !pat.isEmpty) = true := by
    simp [h, List.isEmpty_iff, hp]
  show replaceAllF pat repl (c :: s).length (c :: s) = _
  rw [List.length_cons]
  simp only [replaceAllF, hcond, if_true]
  exact congrArg (repl ++ ·)
    (replaceAllF_fuel pat repl _ _ _ (by simp [List.length_drop]) (le_refl _))

theorem replaceAll_cons_neg (pat repl : Str) (c : Char) (s : Str)
    (h : startsWithStr (c :: s) pat = false) :
    replaceAll pat repl (c :: s) = c :: replaceAll pat repl s := by
  have hcond : (startsWithStr (c :: s) pat && !pat.isEmpty) = false := by
    simp [h]
  show replaceAllF pat repl (c :: s).length (c :: s) = _
  rw [List.length_cons]
  simp only [replaceAllF, hcond]
  rfl

theorem startsWithStr_iff (p : Str) : ∀ s, startsWithStr s p = true ↔ p <+: s := by
  induction p with
  | nil => intro s; simp [startsWithStr, List.nil_prefix]
  | cons q ps ih =>
    intro s
    cases s with
    | nil => simp [startsWithStr]
    | cons c s =>
      simp only [startsWithStr, Bool.and_eq_true, beq_iff_eq, ih,
        List.cons_prefix_cons]
      constructor
      · rintro ⟨h1, h2⟩; exact ⟨h1.symm, h2⟩
      · rintro ⟨h1, h2⟩; exact ⟨h1.symm, h2⟩

theorem occursIn_iff (pat : Str) : ∀ s, occursIn pat s = true ↔ pat <:+: s := by
  intro s
  induction s with
  | nil => simp [occursIn, List.isEmpty_iff, List.infix_nil]
  | cons c s ih =>
    simp [occursIn, ih, startsWithStr_iff, List.infix_cons_iff]

theorem strEndsWith_iff (s suf : Str) : strEndsWith s suf = true ↔ suf <:+ s := by
  unfold strEndsWith
  rw [startsWithStr_iff]
  exact List.reverse_prefix

theorem expandReplF_noBackslash (m : Str) :
    ∀ fuel s, s.length ≤ fuel → noBackslash s = true →
      expandReplF m fuel s = .ok s := by
  intro fuel
  induction fuel with
  | zero =>
    intro s h1 _
    have hs : s = [] := List.eq_nil_of_length_eq_zero (Nat.le_zero.mp h1)
    subst hs
    rfl
  | succ g ih =>
    intro s h1 h2
    cases s with
    | nil => rfl
    | cons c rest =>
      simp only [noBackslash, List.all_cons, Bool.and_eq_true, Bool.not_eq_true',
        beq_eq_false_iff_ne, ne_eq] at h2
      have hc : (c == '\\') = false := by
        simp [h2.1]
      have hr : rest.length ≤ g := by simp at h1; omega
      simp only [expandReplF, hc, Bool.false_eq_true, if_false]
      rw [ih rest hr h2.2]
      rfl

theorem expandRepl_noBackslash (m s : Str) (h : noBackslash s = true) :
    expandRepl m s = .ok s :=
  expandReplF_noBackslash m s.length s (le_refl _) h

theorem subDollar_ok (res n : Str) (v : PyVal)
    (h : noBackslash (pyStr v) = true) :
    subDollar res (n, v) =
      .ok (replaceAll (dollarPlaceholder n) (pyStr v) res) := by
  unfold subDollar
  rw [expandRepl_noBackslash _ _ h]

theorem subBrace_ok (res n : Str) (v : PyVal)
    (h : noBackslash (pyStr v) = true) :
    subBrace res (n, v) =
      .ok (replaceAll (bracePlaceholder n) (pyStr v) res) := by
  unfold subBrace
  rw [expandRepl_noBackslash _ _ h]

theorem foldlM_subDollar_eq (vars : List (Str × PyVal)) :
    ∀ t, vars.foldlM subDollar t = dollarPassAll vars t := by
  induction vars with
  | nil => intro t; rfl
  | cons nv rest ih =>
    intro t
    simp only [List.foldlM, dollarPassAll]
    cases h : subDollar t nv with
    | error e => simp [h, Except.bind]; rfl
    | ok r => simp [h, Except.bind]; exact ih r

theorem foldlM_subBrace_eq (vars : List (Str × PyVal)) :
    ∀ t, vars.foldlM subBrace t = bracePassAll vars t := by
  induction vars with
  | nil => intro t; rfl
  | cons nv rest ih =>
    intro t
    simp only [List.foldlM, bracePassAll]
    cases h : subBrace t nv with
    | error e => simp [h, Except.bind]; rfl
    | ok r => simp [h, Except.bind]; exact ih r

theorem replace_variables_eq_passes (template : Str)
    (vars : List (Str × PyVal)) :
    replace_variables template vars =
      match dollarPassAll vars template with
      | .error e => .error e
      | .ok r => bracePassAll vars r := by
  unfold replace_variables
  rw [foldlM_subDollar_eq]
  cases dollarPassAll vars template with
  | error e => rfl
  | ok r => simp only []; rw [foldlM_subBrace_eq]

theorem dollarPassAll_ok (vars : List (Str × PyVal))
    (h : allValsNoBackslash vars = true) :
    ∀ t, dollarPassAll vars t = .ok (dollarChain vars t) := by
  induction vars with
  | nil => intro t; rfl
  | cons nv rest ih =>
    intro t
    simp only [allValsNoBackslash, List.all_cons, Bool.and_eq_true] at h
    obtain ⟨n, v⟩ := nv
    simp only [dollarPassAll, dollarChain]
    rw [subDollar_ok t n v h.1]
    exact ih h.2 _

theorem bracePassAll_ok (vars : List (Str × PyVal))
    (h : allValsNoBackslash vars = true) :
    ∀ t, bracePassAll vars t = .ok (braceChain vars t) := by
  induction vars with
  | nil => intro t; rfl
  | cons nv rest ih =>
    intro t
    simp only [allValsNoBackslash, List.all_cons, Bool.and_eq_true] at h
    obtain ⟨n, v⟩ := nv
    simp only [bracePassAll, braceChain]
    rw [subBrace_ok t n v h.1]
    exact ih h.2 _

theorem replace_variables_ok (template : Str) (vars : List (Str × PyVal))
    (h : allValsNoBackslash vars = true) :
    replace_variables template vars =
      .ok (braceChain vars (dollarChain vars template)) := by
  rw [replace_variables_eq_passes, dollarPassAll_ok vars h]
  exact bracePassAll_ok vars h _

/-- Claim C1 (code bug): the Substitution Engine does not copy values
verbatim, because re.sub escape-interprets its replacement string. For the
template holding one placeholder of X, the two-character value
backslash-n is turned into a newline character rather than kept verbatim,
and the value C-colon-backslash-Users raises re.error (bad escape) and crashes the run
instead of producing output; with a verbatim substitution the first output
would equal the value itself. -/
theorem c1_backslash_value_not_verbatim :
    replace_variables (dollarPlaceholder ['X'])
        [(['X'], some ['a', '\\', 'n', 'b'])] = .ok ['a', '\n', 'b'] ∧
    (['a', '\n', 'b'] : Str) ≠ ['a', '\\', 'n', 'b'] ∧
    replace_variables (dollarPlaceholder ['X'])
        [(['X'], some ['C', ':', '\\', 'U', 's', 'e', 'r', 's'])] =
      .error "bad escape" :=
  ⟨rfl, by decide, rfl⟩

/-- Claim C2 counterexample: with the mapping ordering A before B and the
value of A equal to the dollar placeholder of B, the introduced text is
substituted by the later pass of B, producing x where the claim demands
the placeholder of B to survive unmodified. -/
theorem c2_counterexample :
    replace_variables (dollarPlaceholder ['A'])
        [(['A'], some (dollarPlaceholder ['B'])), (['B'], some ['x'])] =
      .ok ['x'] ∧
    (['x'] : Str) ≠ dollarPlaceholder ['B'] :=
  ⟨rfl, by decide⟩

/-- Claim C2 amended: substitution is sequential, not non-recursive. A
single re.sub pass never re-scans its own output: the replacement text it
inserts for a leading occurrence is skipped whole and scanning resumes
after it, even when that text contains the pattern again. Across passes,
however, a substituted value is re-scanned: a dollar placeholder of a
variable later in mapping order is substituted by that later pass, while
the dollar placeholder of an earlier variable survives to the output. -/
theorem c2_sequential_not_recursive (pat repl b : Str) (hp : pat ≠ []) :
    replaceAll pat repl (pat ++ b) = repl ++ replaceAll pat repl b ∧
    replace_variables (dollarPlaceholder ['A'])
        [(['A'], some (dollarPlaceholder ['B'])), (['B'], some ['x'])] =
      .ok ['x'] ∧
    replace_variables (dollarPlaceholder ['B'])
        [(['A'], some ['y']), (['B'], some (dollarPlaceholder ['A']))] =
      .ok (dollarPlaceholder ['A']) := by
  refine ⟨?_, rfl, rfl⟩
  cases pat with
  | nil => exact absurd rfl hp
  | cons p0 pr =>
    have hsw : startsWithStr (p0 :: (pr ++ b)) (p0 :: pr) = true := by
      rw [startsWithStr_iff]
      exact List.prefix_append _ _
    have hdrop : List.drop ((p0 :: pr).length - 1) (pr ++ b) = b := by
      exact List.drop_left' (by simp)
    rw [List.cons_append,
      replaceAll_cons_pos (p0 :: pr) repl p0 (pr ++ b) hsw (by simp), hdrop]

/-- Witness for the amended C2 at a concrete input whose replacement
contains the pattern again: the inserted text is not re-scanned. -/
theorem c2_sequential_not_recursive_witness :
    replaceAll ['a'] ['b', 'a'] (['a'] ++ ['c']) =
      ['b', 'a'] ++ replaceAll ['a'] ['b', 'a'] ['c'] :=
  (c2_sequential_not_recursive ['a'] ['b', 'a'] ['c'] (by decide)).1

/-- Claim C3 counterexample: the two syntax passes do not commute. With
the value of A equal to the brace placeholder of B, the code order
(dollar passes first) substitutes the introduced brace placeholder in the
later brace pass and yields x, while the opposite order leaves the brace
placeholder of B in the output. -/
theorem c3_counterexample :
    replace_variables (dollarPlaceholder ['A'])
        [(['A'], some (bracePlaceholder ['B'])), (['B'], some ['x'])] =
      .ok ['x'] ∧
    replace_variables_swapped (dollarPlaceholder ['A'])
        [(['A'], some (bracePlaceholder ['B'])), (['B'], some ['x'])] =
      .ok (bracePlaceholder ['B']) ∧
    (['x'] : Str) ≠ bracePlaceholder ['B'] :=
  ⟨rfl, rfl, by decide⟩

/-- Claim C3 amended: the engine resolves all dollar placeholders for all
variables first and then all brace placeholders (replace_variables equals
the dollar pass chained into the brace pass), and running the two syntax
passes in the opposite order is not equivalent in general: the two orders
produce different outputs when a substituted value introduces a
placeholder of the other syntax. -/
theorem c3_pass_order_fixed (template : Str) (vars : List (Str × PyVal)) :
    (replace_variables template vars =
      match dollarPassAll vars template with
      | .error e => .error e
      | .ok r => bracePassAll vars r) ∧
    replace_variables (dollarPlaceholder ['A'])
        [(['A'], some (bracePlaceholder ['B'])), (['B'], some ['x'])] ≠
      replace_variables_swapped (dollarPlaceholder ['A'])
        [(['A'], some (bracePlaceholder ['B'])), (['B'], some ['x'])] := by
  refine ⟨replace_variables_eq_passes template vars, ?_⟩
  intro h
  rw [show replace_variables (dollarPlaceholder ['A'])
        [(['A'], some (bracePlaceholder ['B'])), (['B'], some ['x'])] =
      .ok ['x'] from rfl,
    show replace_variables_swapped (dollarPlaceholder ['A'])
        [(['A'], some (bracePlaceholder ['B'])), (['B'], some ['x'])] =
      .ok (bracePlaceholder ['B']) from rfl] at h
  exact absurd (Except.ok.inj h) (by decide)

/-- Claim C5 (code bug): the completion message of line 153 reports
len(rows) as the generated count, so rows skipped for an empty filename
are still counted. With one whitespace-only filename row and one good row
the run writes exactly one file and warns once, yet reports two files
generated. -/
theorem c5_report_counts_skipped_rows :
    mainRun (dollarPlaceholder ['A']) [['f'], ['A']]
        [[[' ', ' ', ' ']], [['o', 'u', 't'], ['y']]] =
      .ok ([(['o', 'u', 't', '.', 't', 'x', 't'], ['y'])], 1, 2) ∧
    ([(['o', 'u', 't', '.', 't', 'x', 't'], ['y'])] : List (Str × Str)).length
      ≠ 2 :=
  ⟨rfl, by decide⟩

/-- Claim C8: an empty header list or an empty row list makes main print
the empty-input message and exit with status 1 before any row is
processed, modelled as the error outcome carrying that message, so no
output file is produced. -/
theorem c8_empty_input_fatal (template : Str) (headers : List Str)
    (rows : List (List Str)) (h : headers = [] ∨ rows = []) :
    mainRun template headers rows =
      .error "Error: CSV file is empty or has no data rows." := by
  unfold mainRun
  rcases h with h | h <;> subst h <;> simp

/-- Witness for C8 at concrete empty-column and empty-row inputs. -/
theorem c8_empty_input_fatal_witness :
    mainRun ['t'] [] [[['x']]] =
      .error "Error: CSV file is empty or has no data rows." ∧
    mainRun ['t'] [['a']] [] =
      .error "Error: CSV file is empty or has no data rows." :=
  ⟨c8_empty_input_fatal ['t'] [] [[['x']]] (Or.inl rfl),
   c8_empty_input_fatal ['t'] [['a']] [] (Or.inr rfl)⟩

/-- Claim C10: a variable bound to the Python value None raises no error:
str turns it into the four characters None and every matching placeholder
is replaced by that literal text; csv.DictReader fills the trailing
columns of a short row with None, as the buildVars evaluation shows, and
a full run of the engine on such a mapping succeeds. -/
theorem c10_none_value_substituted_as_text :
    pyStr none = ['N', 'o', 'n', 'e'] ∧
    (∀ res n : Str,
      subDollar res (n, none) =
        .ok (replaceAll (dollarPlaceholder n) ['N', 'o', 'n', 'e'] res) ∧
      subBrace res (n, none) =
        .ok (replaceAll (bracePlaceholder n) ['N', 'o', 'n', 'e'] res)) ∧
    buildVars [['f'], ['A'], ['B']] [['x'], ['y']] =
      [(['A'], some ['y']), (['B'], none)] ∧
    replace_variables (dollarPlaceholder ['B'])
        [(['A'], some ['y']), (['B'], none)] = .ok ['N', 'o', 'n', 'e'] := by
  refine ⟨rfl, ?_, rfl, rfl⟩
  intro res n
  exact ⟨subDollar_ok res n none (by decide), subBrace_ok res n none (by decide)⟩

/-- Claim C6: extension normalization behaves as specified and is
idempotent: a trimmed name already ending in .txt is left unchanged, any
other name has .txt appended exactly once (the result then ends in .txt
but not in .txt.txt), and normalising twice equals normalising once. -/
theorem c6_extension_normalization (s : Str) :
    normalizeExt (normalizeExt s) = normalizeExt s ∧
    (strEndsWith s txtExt = true → normalizeExt s = s) ∧
    (strEndsWith s txtExt = false →
      normalizeExt s = s ++ txtExt ∧
      strEndsWith (normalizeExt s) txtExt = true ∧
      strEndsWith (normalizeExt s) (txtExt ++ txtExt) = false) := by
  have happ : ∀ u : Str, strEndsWith (u ++ txtExt) txtExt = true := by
    intro u
    rw [strEndsWith_iff]
    exact List.suffix_append u txtExt
  cases hE : strEndsWith s txtExt with
  | true =>
    have h1 : normalizeExt s = s := by
      unfold normalizeExt
      rw [if_pos hE]
    exact ⟨by rw [h1]; exact h1, fun _ => h1, fun hf => Bool.noConfusion hf⟩
  | false =>
    have h1 : normalizeExt s = s ++ txtExt := by
      unfold normalizeExt
      rw [if_neg (by simp [hE])]
    have hid : normalizeExt (normalizeExt s) = normalizeExt s := by
      rw [h1]
      unfold normalizeExt
      rw [if_pos (happ s)]
    refine ⟨hid, fun ht => Bool.noConfusion ht,
      fun _ => ⟨h1, by rw [h1]; exact happ s, ?_⟩⟩
    rw [h1]
    cases hdd : strEndsWith (s ++ txtExt) (txtExt ++ txtExt) with
    | false => rfl
    | true =>
      exfalso
      rw [strEndsWith_iff] at hdd
      obtain ⟨w, hw⟩ := hdd
      rw [← List.append_assoc] at hw
      have hws : w ++ txtExt = s := List.append_cancel_right hw
      have hse : strEndsWith s txtExt = true := by
        rw [strEndsWith_iff]
        exact ⟨w, hws⟩
      rw [hse] at hE
      exact Bool.noConfusion hE

/-- Witness for C6: a name without the extension gains it, a name with it
is unchanged. -/
theorem c6_extension_normalization_witness :
    normalizeExt ['r', 'e', 'p'] = ['r', 'e', 'p', '.', 't', 'x', 't'] ∧
    normalizeExt ['r', 'e', 'p', '.', 't', 'x', 't'] =
      ['r', 'e', 'p', '.', 't', 'x', 't'] := by
  constructor
  · exact ((c6_extension_normalization ['r', 'e', 'p']).2.2 (by decide)).1
  · exact (c6_extension_normalization
      ['r', 'e', 'p', '.', 't', 'x', 't']).2.1 (by decide)

/-- Claim C7: a row whose filename field strips to empty is skipped with
a warning: it yields no output file, and the run continues with the
remaining rows, whose results are unchanged. -/
theorem c7_empty_filename_skips (template raw f : Str) (hs : List Str)
    (row : List Str) (rest : List (List Str))
    (hv : dictGet (f :: hs) row f = some (some raw))
    (hstrip : pyStrip raw = []) :
    rowAction template (f :: hs) row = .skip ∧
    processRows template (f :: hs) (row :: rest) =
      match processRows template (f :: hs) rest with
      | .error e => .error e
      | .ok (outs, w) => .ok (outs, w + 1) := by
  have hstep : rowAction template (f :: hs) row = .skip := by
    simp only [rowAction]
    rw [hv]
    simp [hstrip]
  refine ⟨hstep, ?_⟩
  simp only [processRows]
  rw [hstep]

/-- Witness for C7: a whitespace-only filename row is skipped and counted
as a warning, producing no file. -/
theorem c7_empty_filename_skips_witness :
    rowAction ['t'] [['f'], ['A']] [[' ', ' ']] = RowStep.skip ∧
    processRows ['t'] [['f'], ['A']] [[[' ', ' ']]] = .ok ([], 1) := by
  have h := c7_empty_filename_skips ['t'] [' ', ' '] ['f'] [['A']]
    [[' ', ' ']] [] rfl rfl
  exact ⟨h.1, h.2.trans rfl⟩

theorem mem_dedupFirstAux (x : Str) :
    ∀ (l seen : List Str), x ∈ dedupFirstAux seen l → x ∈ l := by
  intro l
  induction l with
  | nil =>
    intro seen h
    simp [dedupFirstAux] at h
  | cons h0 t ih =>
    intro seen hx
    simp only [dedupFirstAux] at hx
    by_cases hs : h0 ∈ seen
    · rw [if_pos hs] at hx
      exact List.mem_cons_of_mem _ (ih seen hx)
    · rw [if_neg hs] at hx
      rcases List.mem_cons.mp hx with h | h
      · exact h ▸ List.mem_cons_self _ _
      · exact List.mem_cons_of_mem _ (ih _ h)

theorem mem_dedupFirst (x : Str) (l : List Str) (h : x ∈ dedupFirst l) :
    x ∈ l := mem_dedupFirstAux x l [] h

theorem buildVars_keys (headers : List Str) (row : List Str) :
    (buildVars headers row).map Prod.fst = dedupFirst (headers.drop 1) := by
  unfold buildVars
  induction dedupFirst (headers.drop 1) with
  | nil => rfl
  | cons a l ih => simp only [List.map_cons, ih]

theorem cleanName_mem (n : Str) (h : cleanName n = true) :
    '$' ∉ n ∧ '\x7b' ∉ n ∧ '\x7d' ∉ n := by
  simp only [cleanName, List.all_eq_true] at h
  refine ⟨fun hc => ?_, fun hc => ?_, fun hc => ?_⟩
  · have h2 := h _ hc
    simp at h2
  · have h2 := h _ hc
    simp at h2
  · have h2 := h _ hc
    simp at h2

theorem prefix_concat_iff (v q : Str) (c : Char) :
    v <+: q ++ [c] ↔ v = q ++ [c] ∨ v <+: q := by
  constructor
  · intro h
    have h2 : v.reverse <:+ (q ++ [c]).reverse := List.reverse_suffix.mpr h
    rw [show (q ++ [c]).reverse = c :: q.reverse by simp] at h2
    rcases List.suffix_cons_iff.mp h2 with h3 | h3
    · left
      have h4 : v.reverse.reverse = (c :: q.reverse).reverse := by rw [h3]
      simpa using h4
    · right
      exact List.reverse_suffix.mp h3
  · rintro (rfl | h)
    · exact List.prefix_refl _
    · exact h.trans (List.prefix_append q [c])

theorem suffix_concat_nonempty (v q : Str) (c : Char) (hv : v ≠ [])
    (h : v <:+ q ++ [c]) : ∃ v1, v = v1 ++ [c] ∧ v1 <:+ q := by
  rcases List.eq_nil_or_concat v with rfl | ⟨v1, a, rfl⟩
  · exact absurd rfl hv
  · have h2 : (v1.concat a).reverse <+: (q ++ [c]).reverse :=
      List.reverse_prefix.mpr h
    rw [show (v1.concat a).reverse = a :: v1.reverse by simp,
      show (q ++ [c]).reverse = c :: q.reverse by simp] at h2
    rcases List.cons_prefix_cons.mp h2 with ⟨hac, h3⟩
    refine ⟨v1, by simp [hac], ?_⟩
    exact List.reverse_prefix.mp h3

theorem prefix_endc (v q : Str) (c : Char) (hq : c ∉ q)
    (h : v <+: q ++ [c]) (hc : c ∈ v) : v = q ++ [c] := by
  rcases (prefix_concat_iff v q c).mp h with h2 | h2
  · exact h2
  · exact absurd (h2.subset hc) hq

theorem first_occ_unique (c : Char) :
    ∀ w p z q : Str, c ∉ w → c ∉ p → w ++ c :: z = p ++ c :: q →
      w = p ∧ z = q := by
  intro w
  induction w with
  | nil =>
    intro p z q _ hp heq
    cases p with
    | nil => simpa using heq
    | cons p0 p1 =>
      exfalso
      simp only [List.nil_append, List.cons_append] at heq
      injection heq with h1 _
      exact hp (by rw [h1]; exact List.mem_cons_self _ _)
  | cons w0 w1 ih =>
    intro p z q hw hp heq
    cases p with
    | nil =>
      exfalso
      simp only [List.nil_append, List.cons_append] at heq
      injection heq with h1 _
      exact hw (by rw [← h1]; exact List.mem_cons_self _ _)
    | cons p0 p1 =>
      simp only [List.cons_append] at heq
      injection heq with h1 h2
      have h3 := ih p1 z q (fun hc => hw (List.mem_cons_of_mem _ hc))
        (fun hc => hp (List.mem_cons_of_mem _ hc)) h2
      exact ⟨by rw [h1, h3.1], h3.2⟩

theorem head_force (u v t : Str) (c : Char) (heq : u ++ v = c :: t)
    (hu : c ∉ u) : u = [] := by
  cases u with
  | nil => rfl
  | cons u0 u1 =>
    exfalso
    simp only [List.cons_append] at heq
    injection heq with h1 _
    exact hu (by rw [← h1]; exact List.mem_cons_self _ _)

theorem occurrence_split (x p a b c d : Str)
    (heq : a ++ x ++ b = c ++ p ++ d) (hle : a.length ≤ c.length) :
    a.length + x.length ≤ c.length ∨
      ∃ u v : Str, x = u ++ v ∧ v ≠ [] ∧ (v <+: p ∨ p <+: v) := by
  have hpa : a <+: c := by
    have h1 : a <+: a ++ (x ++ b) := List.prefix_append a (x ++ b)
    have h2 : c <+: a ++ (x ++ b) := by
      rw [show a ++ (x ++ b) = c ++ (p ++ d) by
        simpa [List.append_assoc] using heq]
      exact List.prefix_append c (p ++ d)
    exact List.prefix_of_prefix_length_le h1 h2 hle
  obtain ⟨e, he⟩ := hpa
  have h2 : x ++ b = e ++ (p ++ d) := by
    have h3 : a ++ (x ++ b) = a ++ (e ++ (p ++ d)) := by
      have h3a : a ++ (e ++ (p ++ d)) = (a ++ e) ++ (p ++ d) :=
        (List.append_assoc a e (p ++ d)).symm
      rw [h3a, he]
      simpa [List.append_assoc] using heq
    exact List.append_cancel_left h3
  by_cases hxe : x.length ≤ e.length
  · left
    have hc : c.length = a.length + e.length := by
      rw [← he]
      simp
    omega
  · right
    push_neg at hxe
    have hex : e <+: x := by
      have h4 : e <+: x ++ b := ⟨p ++ d, h2.symm⟩
      have h5 : x <+: x ++ b := List.prefix_append x b
      exact List.prefix_of_prefix_length_le h4 h5 (le_of_lt hxe)
    obtain ⟨v, hv⟩ := hex
    have hvne : v ≠ [] := by
      intro hnil
      subst hnil
      rw [List.append_nil] at hv
      rw [hv] at hxe
      exact lt_irrefl _ hxe
    have h6 : v ++ b = p ++ d := by
      have h7 : e ++ (v ++ b) = e ++ (p ++ d) := by
        rw [← List.append_assoc, hv]
        exact h2
      exact List.append_cancel_left h7
    refine ⟨e, v, hv.symm, hvne, ?_⟩
    rcases le_total v.length p.length with hl | hl
    · exact Or.inl (List.prefix_of_prefix_length_le
        (List.prefix_append v b) ⟨d, h6.symm⟩ hl)
    · exact Or.inr (List.prefix_of_prefix_length_le
        ⟨d, h6.symm⟩ (List.prefix_append v b) hl)

theorem suffix_dollar_prefix_dollar (A B v : Str) (hA : cleanName A = true)
    (hB : cleanName B = true) (hv : v ≠ [])
    (hsuf : v <:+ dollarPlaceholder A) (hpre : v <+: dollarPlaceholder B) :
    A = B := by
  obtain ⟨hA1, _, hA3⟩ := cleanName_mem A hA
  obtain ⟨hB1, _, hB3⟩ := cleanName_mem B hB
  have hsA : dollarPlaceholder A = ('$' :: '\x7b' :: A) ++ ['\x7d'] := rfl
  have hsB : dollarPlaceholder B = ('$' :: '\x7b' :: B) ++ ['\x7d'] := rfl
  rw [hsA] at hsuf
  obtain ⟨v1, hv1, _⟩ := suffix_concat_nonempty v _ _ hv hsuf
  have hcv : '\x7d' ∈ v := by
    rw [hv1]
    exact List.mem_append_right _ (by simp)
  have hqB : '\x7d' ∉ ('$' :: '\x7b' :: B) := by simp [hB3]
  rw [hsB] at hpre
  have hvp : v = ('$' :: '\x7b' :: B) ++ ['\x7d'] := prefix_endc v _ _ hqB hpre hcv
  obtain ⟨u, hu⟩ := hsuf
  have hcu : '$' ∉ u := by
    have hc1 : (u ++ v).count '$' = 1 := by
      rw [hu]
      simp [List.count_cons, List.count_append, List.count_eq_zero.mpr hA1]
    have hc2 : v.count '$' = 1 := by
      rw [hvp]
      simp [List.count_cons, List.count_append, List.count_eq_zero.mpr hB1]
    rw [List.count_append, hc2] at hc1
    exact List.count_eq_zero.mp (by omega)
  have hu0 : u = [] := by
    refine head_force u v ('\x7b' :: (A ++ ['\x7d'])) '$' ?_ hcu
    rw [hu]
    rfl
  rw [hu0, List.nil_append] at hu
  rw [hvp] at hu
  have h7 : ('\x7b' :: B) ++ ['\x7d'] = ('\x7b' :: A) ++ ['\x7d'] := by
    injection hu
  have h8 : B ++ ['\x7d'] = A ++ ['\x7d'] := by
    injection h7
  exact (List.append_cancel_right h8).symm

theorem suffix_dollar_prefix_brace (A B v : Str) (hA : cleanName A = true)
    (hB : cleanName B = true) (hv : v ≠ [])
    (hsuf : v <:+ dollarPlaceholder A) (hpre : v <+: bracePlaceholder B) :
    False := by
  obtain ⟨_, hA2, _⟩ := cleanName_mem A hA
  obtain ⟨_, hB2, hB3⟩ := cleanName_mem B hB
  have hsA : dollarPlaceholder A = ('$' :: '\x7b' :: A) ++ ['\x7d'] := rfl
  rw [hsA] at hsuf
  obtain ⟨v1, hv1, _⟩ := suffix_concat_nonempty v _ _ hv hsuf
  have hcv : '\x7d' ∈ v := by
    rw [hv1]
    exact List.mem_append_right _ (by simp)
  have hcle : v.count '\x7b' ≤ 1 := by
    have h1 := (hsuf.sublist).count_le '\x7b'
    have h2 : (('$' :: '\x7b' :: A) ++ ['\x7d']).count '\x7b' = 1 := by
      simp [List.count_cons, List.count_append, List.count_eq_zero.mpr hA2]
    omega
  have hsB : bracePlaceholder B =
      ('\x7b' :: '\x7b' :: (B ++ ['\x7d'])) ++ ['\x7d'] := by
    simp [bracePlaceholder]
  rw [hsB] at hpre
  rcases (prefix_concat_iff v _ '\x7d').mp hpre with h2 | h2
  · have hc2 : v.count '\x7b' = 2 := by
      rw [h2]
      simp [List.count_cons, List.count_append, List.count_eq_zero.mpr hB2]
    omega
  · have hq2 : '\x7d' ∉ ('\x7b' :: '\x7b' :: B) := by simp [hB3]
    have h3 : v = ('\x7b' :: '\x7b' :: B) ++ ['\x7d'] := by
      refine prefix_endc v _ _ hq2 ?_ hcv
      exact h2
    have hc2 : v.count '\x7b' = 2 := by
      rw [h3]
      simp [List.count_cons, List.count_append, List.count_eq_zero.mpr hB2]
    omega

theorem suffix_brace_prefix_dollar (A B v : Str) (hA : cleanName A = true)
    (hB : cleanName B = true) (hv : v ≠ [])
    (hsuf : v <:+ bracePlaceholder A) (hpre : v <+: dollarPlaceholder B) :
    False := by
  obtain ⟨hA1, _, _⟩ := cleanName_mem A hA
  obtain ⟨_, _, hB3⟩ := cleanName_mem B hB
  have hsA : bracePlaceholder A =
      ('\x7b' :: '\x7b' :: (A ++ ['\x7d'])) ++ ['\x7d'] := by
    simp [bracePlaceholder]
  rw [hsA] at hsuf
  obtain ⟨v1, hv1, _⟩ := suffix_concat_nonempty v _ _ hv hsuf
  have hcv : '\x7d' ∈ v := by
    rw [hv1]
    exact List.mem_append_right _ (by simp)
  have hsB : dollarPlaceholder B = ('$' :: '\x7b' :: B) ++ ['\x7d'] := rfl
  rw [hsB] at hpre
  have hqB : '\x7d' ∉ ('$' :: '\x7b' :: B) := by simp [hB3]
  have hvp : v = ('$' :: '\x7b' :: B) ++ ['\x7d'] := prefix_endc v _ _ hqB hpre hcv
  have hdol : '$' ∈ v := by
    rw [hvp]
    simp
  have h3 : '$' ∉ ('\x7b' :: '\x7b' :: (A ++ ['\x7d'])) ++ ['\x7d'] := by
    simp [hA1]
  exact h3 (hsuf.sublist.subset hdol)

theorem suffix_brace_prefix_brace (A B v : Str) (hA : cleanName A = true)
    (hB : cleanName B = true) (hv : v ≠ [])
    (hsuf : v <:+ bracePlaceholder A) (hpre : v <+: bracePlaceholder B) :
    A = B := by
  obtain ⟨_, hA2, hA3⟩ := cleanName_mem A hA
  obtain ⟨_, hB2, hB3⟩ := cleanName_mem B hB
  have hsA : bracePlaceholder A =
      ('\x7b' :: '\x7b' :: (A ++ ['\x7d'])) ++ ['\x7d'] := by
    simp [bracePlaceholder]
  have hsB : bracePlaceholder B =
      ('\x7b' :: '\x7b' :: (B ++ ['\x7d'])) ++ ['\x7d'] := by
    simp [bracePlaceholder]
  rw [hsA] at hsuf
  rw [hsB] at hpre
  obtain ⟨v1, hv1, _⟩ := suffix_concat_nonempty v _ _ hv hsuf
  have hcv : '\x7d' ∈ v := by
    rw [hv1]
    exact List.mem_append_right _ (by simp)
  have hv2 : v = ('\x7b' :: '\x7b' :: (B ++ ['\x7d'])) ++ ['\x7d'] ∨
      v = ('\x7b' :: '\x7b' :: B) ++ ['\x7d'] := by
    rcases (prefix_concat_iff v _ '\x7d').mp hpre with h2 | h2
    · exact Or.inl h2
    · right
      exact prefix_endc v _ _ (by simp [hB3]) h2 hcv
  obtain ⟨u, hu⟩ := hsuf
  have hcu : '\x7b' ∉ u := by
    have hc1 : (u ++ v).count '\x7b' = 2 := by
      rw [hu]
      simp [List.count_cons, List.count_append, List.count_eq_zero.mpr hA2]
    have hc2 : v.count '\x7b' = 2 := by
      rcases hv2 with h | h <;> rw [h] <;>
        simp [List.count_cons, List.count_append, List.count_eq_zero.mpr hB2]
    rw [List.count_append, hc2] at hc1
    exact List.count_eq_zero.mp (by omega)
  have hu0 : u = [] := by
    refine head_force u v ('\x7b' :: ((A ++ ['\x7d']) ++ ['\x7d'])) '\x7b' ?_ hcu
    rw [hu]
    rfl
  rw [hu0, List.nil_append] at hu
  rcases hv2 with h | h
  · rw [h] at hu
    have h7 : ('\x7b' :: (B ++ ['\x7d'])) ++ ['\x7d'] =
        ('\x7b' :: (A ++ ['\x7d'])) ++ ['\x7d'] := by
      injection hu
    have h8 : (B ++ ['\x7d']) ++ ['\x7d'] = (A ++ ['\x7d']) ++ ['\x7d'] := by
      injection h7
    have h9 : B ++ ['\x7d'] = A ++ ['\x7d'] := List.append_cancel_right h8
    exact (List.append_cancel_right h9).symm
  · exfalso
    rw [h] at hu
    have h7 : ('\x7b' :: B) ++ ['\x7d'] = ('\x7b' :: (A ++ ['\x7d'])) ++ ['\x7d'] := by
      injection hu
    have h8 : B ++ ['\x7d'] = (A ++ ['\x7d']) ++ ['\x7d'] := by
      injection h7
    rw [List.append_assoc] at h8
    have h10 := first_occ_unique '\x7d' B A [] ['\x7d'] hB3 hA3 h8
    exact List.noConfusion h10.2

theorem dollar_infix_dollar (A B : Str) (hA : cleanName A = true)
    (hB : cleanName B = true)
    (h : dollarPlaceholder B <:+: dollarPlaceholder A) : A = B := by
  obtain ⟨hA1, _, hA3⟩ := cleanName_mem A hA
  obtain ⟨hB1, _, _⟩ := cleanName_mem B hB
  obtain ⟨u, w, huw⟩ := h
  have hcu : '$' ∉ u := by
    have hc1 : (u ++ dollarPlaceholder B ++ w).count '$' = 1 := by
      rw [huw]
      simp [dollarPlaceholder, List.count_cons, List.count_append,
        List.count_eq_zero.mpr hA1]
    have hc2 : (dollarPlaceholder B).count '$' = 1 := by
      simp [dollarPlaceholder, List.count_cons, List.count_append,
        List.count_eq_zero.mpr hB1]
    rw [List.count_append, List.count_append, hc2] at hc1
    exact List.count_eq_zero.mp (by omega)
  have hass : u ++ (dollarPlaceholder B ++ w) = dollarPlaceholder A := by
    rw [← List.append_assoc]
    exact huw
  have hu0 : u = [] := head_force u _ ('\x7b' :: (A ++ ['\x7d'])) '$' hass hcu
  rw [hu0, List.nil_append] at hass
  have hpre : dollarPlaceholder B <+: dollarPlaceholder A := ⟨w, hass⟩
  have hsA : dollarPlaceholder A = ('$' :: '\x7b' :: A) ++ ['\x7d'] := rfl
  rw [hsA] at hpre
  have hqA : '\x7d' ∉ ('$' :: '\x7b' :: A) := by simp [hA3]
  have h2 : dollarPlaceholder B = ('$' :: '\x7b' :: A) ++ ['\x7d'] :=
    prefix_endc _ _ _ hqA hpre (by simp [dollarPlaceholder])
  have h3 : ('$' :: '\x7b' :: B) ++ ['\x7d'] = ('$' :: '\x7b' :: A) ++ ['\x7d'] := h2
  have h7 : ('\x7b' :: B) ++ ['\x7d'] = ('\x7b' :: A) ++ ['\x7d'] := by
    injection h3
  have h8 : B ++ ['\x7d'] = A ++ ['\x7d'] := by
    injection h7
  exact (List.append_cancel_right h8).symm

theorem brace_infix_dollar (A B : Str) (hA : cleanName A = true)
    (hB : cleanName B = true)
    (h : bracePlaceholder B <:+: dollarPlaceholder A) : False := by
  obtain ⟨_, hA2, _⟩ := cleanName_mem A hA
  obtain ⟨_, hB2, _⟩ := cleanName_mem B hB
  have h1 := h.sublist.count_le '\x7b'
  have h2 : (bracePlaceholder B).count '\x7b' = 2 := by
    simp [bracePlaceholder, List.count_cons, List.count_append,
      List.count_eq_zero.mpr hB2]
  have h3 : (dollarPlaceholder A).count '\x7b' = 1 := by
    simp [dollarPlaceholder, List.count_cons, List.count_append,
      List.count_eq_zero.mpr hA2]
  omega

theorem dollar_infix_brace (A B : Str) (hA : cleanName A = true)
    (h : dollarPlaceholder B <:+: bracePlaceholder A) : False := by
  obtain ⟨hA1, _, _⟩ := cleanName_mem A hA
  have hdol : '$' ∈ dollarPlaceholder B := by simp [dollarPlaceholder]
  have h2 : '$' ∈ bracePlaceholder A := h.sublist.subset hdol
  simp [bracePlaceholder, hA1] at h2

theorem brace_infix_brace (A B : Str) (hA : cleanName A = true)
    (hB : cleanName B = true)
    (h : bracePlaceholder B <:+: bracePlaceholder A) : A = B := by
  obtain ⟨_, hA2, hA3⟩ := cleanName_mem A hA
  obtain ⟨_, hB2, hB3⟩ := cleanName_mem B hB
  obtain ⟨u, w, huw⟩ := h
  have hcu : '\x7b' ∉ u := by
    have hc1 : (u ++ bracePlaceholder B ++ w).count '\x7b' = 2 := by
      rw [huw]
      simp [bracePlaceholder, List.count_cons, List.count_append,
        List.count_eq_zero.mpr hA2]
    have hc2 : (bracePlaceholder B).count '\x7b' = 2 := by
      simp [bracePlaceholder, List.count_cons, List.count_append,
        List.count_eq_zero.mpr hB2]
    rw [List.count_append, List.count_append, hc2] at hc1
    exact List.count_eq_zero.mp (by omega)
  have hass : u ++ (bracePlaceholder B ++ w) = bracePlaceholder A := by
    rw [← List.append_assoc]
    exact huw
  have hu0 : u = [] :=
    head_force u _ ('\x7b' :: (A ++ ['\x7d', '\x7d'])) '\x7b' hass hcu
  rw [hu0, List.nil_append] at hass
  have hpre : bracePlaceholder B <+: bracePlaceholder A := ⟨w, hass⟩
  have hsA : bracePlaceholder A =
      ('\x7b' :: '\x7b' :: (A ++ ['\x7d'])) ++ ['\x7d'] := by
    simp [bracePlaceholder]
  rw [hsA] at hpre
  rcases (prefix_concat_iff _ _ '\x7d').mp hpre with h2 | h2
  · have h3 : ('\x7b' :: '\x7b' :: (B ++ ['\x7d', '\x7d'])) =
        ('\x7b' :: '\x7b' :: (A ++ ['\x7d'])) ++ ['\x7d'] := h2
    have h7 : ('\x7b' :: (B ++ ['\x7d', '\x7d'])) =
        ('\x7b' :: (A ++ ['\x7d'])) ++ ['\x7d'] := by
      injection h3
    have h8 : B ++ ['\x7d', '\x7d'] = (A ++ ['\x7d']) ++ ['\x7d'] := by
      injection h7
    rw [List.append_assoc] at h8
    have h10 := first_occ_unique '\x7d' B A ['\x7d'] ['\x7d'] hB3 hA3 h8
    exact h10.1.symm
  · exfalso
    have h3 : bracePlaceholder B = ('\x7b' :: '\x7b' :: A) ++ ['\x7d'] :=
      prefix_endc _ _ _ (by simp [hA3]) h2 (by simp [bracePlaceholder])
    have h4 : ('\x7b' :: '\x7b' :: (B ++ ['\x7d', '\x7d'])) =
        ('\x7b' :: '\x7b' :: A) ++ ['\x7d'] := h3
    have h7 : ('\x7b' :: (B ++ ['\x7d', '\x7d'])) =
        ('\x7b' :: A) ++ ['\x7d'] := by
      injection h4
    have h8 : B ++ ['\x7d', '\x7d'] = A ++ ['\x7d'] := by
      injection h7
    have h9 : B ++ '\x7d' :: ['\x7d'] = A ++ '\x7d' :: [] := h8
    have h10 := first_occ_unique '\x7d' B A ['\x7d'] [] hB3 hA3 h9
    exact List.noConfusion h10.2

theorem nonOverlap_of_refuters (x p : Str)
    (hR1 : ∀ v, v ≠ [] → v <:+ x → v <+: p → False)
    (hR2 : ¬ p <:+: x)
    (hR3 : ∀ v, v ≠ [] → v <:+ p → v <+: x → False)
    (hR4 : ¬ x <:+: p) :
    NonOverlap x p := by
  intro a b c d heq
  rcases le_total a.length c.length with hle | hle
  · rcases occurrence_split x p a b c d heq hle with h | ⟨u, v, hxv, hvne, hvp⟩
    · exact Or.inl h
    · exfalso
      have hvsuf : v <:+ x := ⟨u, hxv.symm⟩
      rcases hvp with h1 | h1
      · exact hR1 v hvne hvsuf h1
      · obtain ⟨w, hw⟩ := h1
        obtain ⟨u2, hu2⟩ := hvsuf
        exact hR2 ⟨u2, w, by rw [List.append_assoc, hw, hu2]⟩
  · rcases occurrence_split p x c d a b heq.symm hle with h | ⟨u, v, hxv, hvne, hvp⟩
    · exact Or.inr h
    · exfalso
      have hvsuf : v <:+ p := ⟨u, hxv.symm⟩
      rcases hvp with h1 | h1
      · exact hR3 v hvne hvsuf h1
      · obtain ⟨w, hw⟩ := h1
        obtain ⟨u2, hu2⟩ := hvsuf
        exact hR4 ⟨u2, w, by rw [List.append_assoc, hw, hu2]⟩

theorem nonOverlap_dollar_dollar (U K : Str) (hU : cleanName U = true)
    (hK : cleanName K = true) (hne : U ≠ K) :
    NonOverlap (dollarPlaceholder U) (dollarPlaceholder K) := by
  refine nonOverlap_of_refuters _ _ ?_ ?_ ?_ ?_
  · intro v hv h1 h2
    exact hne (suffix_dollar_prefix_dollar U K v hU hK hv h1 h2)
  · intro h
    exact hne (dollar_infix_dollar U K hU hK h)
  · intro v hv h1 h2
    exact hne (suffix_dollar_prefix_dollar K U v hK hU hv h1 h2).symm
  · intro h
    exact hne (dollar_infix_dollar K U hK hU h).symm

theorem nonOverlap_dollar_brace (U K : Str) (hU : cleanName U = true)
    (hK : cleanName K = true) :
    NonOverlap (dollarPlaceholder U) (bracePlaceholder K) := by
  refine nonOverlap_of_refuters _ _ ?_ ?_ ?_ ?_
  · intro v hv h1 h2
    exact suffix_dollar_prefix_brace U K v hU hK hv h1 h2
  · intro h
    exact brace_infix_dollar U K hU hK h
  · intro v hv h1 h2
    exact suffix_brace_prefix_dollar K U v hK hU hv h1 h2
  · intro h
    exact dollar_infix_brace K U hK h

theorem nonOverlap_brace_dollar (U K : Str) (hU : cleanName U = true)
    (hK : cleanName K = true) :
    NonOverlap (bracePlaceholder U) (dollarPlaceholder K) := by
  refine nonOverlap_of_refuters _ _ ?_ ?_ ?_ ?_
  · intro v hv h1 h2
    exact suffix_brace_prefix_dollar U K v hU hK hv h1 h2
  · intro h
    exact dollar_infix_brace U K hU h
  · intro v hv h1 h2
    exact suffix_dollar_prefix_brace K U v hK hU hv h1 h2
  · intro h
    exact brace_infix_dollar K U hK hU h

theorem nonOverlap_brace_brace (U K : Str) (hU : cleanName U = true)
    (hK : cleanName K = true) (hne : U ≠ K) :
    NonOverlap (bracePlaceholder U) (bracePlaceholder K) := by
  refine nonOverlap_of_refuters _ _ ?_ ?_ ?_ ?_
  · intro v hv h1 h2
    exact hne (suffix_brace_prefix_brace U K v hU hK hv h1 h2)
  · intro h
    exact hne (brace_infix_brace U K hU hK h)
  · intro v hv h1 h2
    exact hne (suffix_brace_prefix_brace K U v hK hU hv h1 h2).symm
  · intro h
    exact hne (brace_infix_brace K U hK hU h).symm

theorem replaceAll_append_left (pat repl : Str) :
    ∀ u v : Str,
      (∀ a b : Str, a ++ pat ++ b = u ++ v → u.length ≤ a.length) →
      replaceAll pat repl (u ++ v) = u ++ replaceAll pat repl v := by
  intro u
  induction u with
  | nil =>
    intro v _
    simp
  | cons c u ih =>
    intro v h
    have hsw : startsWithStr (c :: (u ++ v)) pat = false := by
      cases hb : startsWithStr (c :: (u ++ v)) pat with
      | false => rfl
      | true =>
        exfalso
        rw [startsWithStr_iff] at hb
        obtain ⟨rest, hrest⟩ := hb
        have h2 := h [] rest (by simpa using hrest)
        simp at h2
    have harg : ∀ a b : Str, a ++ pat ++ b = u ++ v → u.length ≤ a.length := by
      intro a b heq
      have h2 := h (c :: a) b (by simp only [List.cons_append]; rw [heq])
      simpa using h2
    rw [List.cons_append, replaceAll_cons_neg pat repl c (u ++ v) hsw, ih v harg]
    simp

theorem replaceAll_preserves_infix (x pat repl : Str) (hx : x ≠ [])
    (hp : pat ≠ []) (hno : NonOverlap x pat) :
    ∀ s, x <:+: s → x <:+: replaceAll pat repl s := by
  suffices h : ∀ n s, s.length ≤ n → x <:+: s → x <:+: replaceAll pat repl s by
    intro s hs
    exact h s.length s (le_refl _) hs
  intro n
  induction n with
  | zero =>
    intro s hlen hxin
    have hs : s = [] := List.eq_nil_of_length_eq_zero (Nat.le_zero.mp hlen)
    subst hs
    exact absurd (List.infix_nil.mp hxin) hx
  | succ n ih =>
    intro s hlen hxin
    cases s with
    | nil => exact absurd (List.infix_nil.mp hxin) hx
    | cons c s0 =>
      obtain ⟨a, b, hab⟩ := hxin
      have hxpos : 0 < x.length := List.length_pos.mpr hx
      have hppos : 0 < pat.length := List.length_pos.mpr hp
      have hs0len : s0.length ≤ n := by
        rw [List.length_cons] at hlen
        omega
      cases hb : startsWithStr (c :: s0) pat with
      | true =>
        have hb2 := (startsWithStr_iff pat (c :: s0)).mp hb
        obtain ⟨rest, hrest⟩ := hb2
        have hno2 := hno a b [] rest (by rw [hab, ← hrest]; simp)
        rcases hno2 with h0 | hpa
        · simp only [List.length_nil] at h0
          omega
        · simp at hpa
          have hpat_pre : pat <+: a := by
            have h4 : pat <+: c :: s0 := ⟨rest, hrest⟩
            have h5 : a <+: c :: s0 :=
              ⟨x ++ b, by rw [← hab]; simp [List.append_assoc]⟩
            exact List.prefix_of_prefix_length_le h4 h5 hpa
          obtain ⟨a2, ha2⟩ := hpat_pre
          have hrest2 : rest = a2 ++ x ++ b := by
            have h6 : pat ++ rest = pat ++ (a2 ++ x ++ b) := by
              rw [hrest, ← hab, ← ha2]
              simp [List.append_assoc]
            exact List.append_cancel_left h6
          rw [replaceAll_cons_pos pat repl c s0 hb hp]
          have hdrop : List.drop (pat.length - 1) s0 = rest := by
            cases pat with
            | nil => exact absurd rfl hp
            | cons p0 pr =>
              have h7 : p0 :: (pr ++ rest) = c :: s0 := by
                rw [← hrest]
                rfl
              injection h7 with _ h8
              rw [← h8]
              have h9 : (p0 :: pr).length - 1 = pr.length := by simp
              rw [h9]
              exact List.drop_left pr rest
          rw [hdrop]
          have hxrest : x <:+: rest := ⟨a2, b, hrest2.symm⟩
          have hlen2 : rest.length ≤ n := by
            have h11 : rest.length ≤ s0.length := by
              cases pat with
              | nil => exact absurd rfl hp
              | cons p0 pr =>
                have h7 : p0 :: (pr ++ rest) = c :: s0 := by
                  rw [← hrest]
                  rfl
                injection h7 with _ h8
                rw [← h8]
                simp
            omega
          obtain ⟨a3, b3, h12⟩ := ih rest hlen2 hxrest
          exact ⟨repl ++ a3, b3, by rw [← h12]; simp [List.append_assoc]⟩
      | false =>
        cases a with
        | nil =>
          have hs : x ++ b = c :: s0 := by simpa using hab
          have hsplit : ∀ a2 b2 : Str, a2 ++ pat ++ b2 = x ++ b →
              x.length ≤ a2.length := by
            intro a2 b2 h2
            have h3 := hno [] b a2 b2 (by simpa using h2.symm)
            rcases h3 with h4 | h4
            · simpa using h4
            · exfalso
              simp only [List.length_nil] at h4
              omega
          have heqs : replaceAll pat repl (x ++ b) = x ++ replaceAll pat repl b :=
            replaceAll_append_left pat repl x b hsplit
          rw [← hs, heqs]
          exact ⟨[], replaceAll pat repl b, by simp⟩
        | cons a0 a1 =>
          have hab2 : a0 :: (a1 ++ x ++ b) = c :: s0 := by
            simpa using hab
          injection hab2 with h1 h2
          have hxs0 : x <:+: s0 := ⟨a1, b, h2⟩
          rw [replaceAll_cons_neg pat repl c s0 hb]
          obtain ⟨a3, b3, h12⟩ := ih s0 hs0len hxs0
          exact ⟨c :: a3, b3, by rw [← h12]; simp⟩

theorem dollarChain_preserves (x : Str) (hx : x ≠ []) :
    ∀ (vars : List (Str × PyVal)),
      (∀ nv ∈ vars, NonOverlap x (dollarPlaceholder nv.1)) →
      ∀ t, x <:+: t → x <:+: dollarChain vars t := by
  intro vars
  induction vars with
  | nil =>
    intro _ t ht
    exact ht
  | cons nv rest ih =>
    intro h t ht
    obtain ⟨n, v⟩ := nv
    simp only [dollarChain]
    refine ih (fun nv2 h2 => h nv2 (List.mem_cons_of_mem _ h2)) _ ?_
    exact replaceAll_preserves_infix x (dollarPlaceholder n) (pyStr v) hx
      (by simp [dollarPlaceholder]) (h (n, v) (List.mem_cons_self _ _)) t ht

theorem braceChain_preserves (x : Str) (hx : x ≠ []) :
    ∀ (vars : List (Str × PyVal)),
      (∀ nv ∈ vars, NonOverlap x (bracePlaceholder nv.1)) →
      ∀ t, x <:+: t → x <:+: braceChain vars t := by
  intro vars
  induction vars with
  | nil =>
    intro _ t ht
    exact ht
  | cons nv rest ih =>
    intro h t ht
    obtain ⟨n, v⟩ := nv
    simp only [braceChain]
    refine ih (fun nv2 h2 => h nv2 (List.mem_cons_of_mem _ h2)) _ ?_
    exact replaceAll_preserves_infix x (bracePlaceholder n) (pyStr v) hx
      (by simp [bracePlaceholder]) (h (n, v) (List.mem_cons_self _ _)) t ht

theorem unknown_placeholder_survives (template U : Str)
    (vars : List (Str × PyVal)) (hU : cleanName U = true)
    (hnames : ∀ nv ∈ vars, cleanName nv.1 = true ∧ nv.1 ≠ U)
    (hvals : allValsNoBackslash vars = true) :
    ∃ out, replace_variables template vars = .ok out ∧
      (dollarPlaceholder U <:+: template → dollarPlaceholder U <:+: out) ∧
      (bracePlaceholder U <:+: template → bracePlaceholder U <:+: out) := by
  refine ⟨braceChain vars (dollarChain vars template),
    replace_variables_ok template vars hvals, ?_, ?_⟩
  · intro ht
    have h1 : dollarPlaceholder U <:+: dollarChain vars template := by
      refine dollarChain_preserves _ (by simp [dollarPlaceholder]) vars ?_ template ht
      intro nv hnv
      exact nonOverlap_dollar_dollar U nv.1 hU (hnames nv hnv).1
        (hnames nv hnv).2.symm
    exact braceChain_preserves _ (by simp [dollarPlaceholder]) vars
      (fun nv hnv => nonOverlap_dollar_brace U nv.1 hU (hnames nv hnv).1) _ h1
  · intro ht
    have h1 : bracePlaceholder U <:+: dollarChain vars template :=
      dollarChain_preserves _ (by simp [bracePlaceholder]) vars
        (fun nv hnv => nonOverlap_brace_dollar U nv.1 hU (hnames nv hnv).1)
        template ht
    exact braceChain_preserves _ (by simp [bracePlaceholder]) vars
      (fun nv hnv => nonOverlap_brace_brace U nv.1 hU (hnames nv hnv).1
        (hnames nv hnv).2.symm) _ h1

/-- Claim C4 counterexample: quantifying over every template and mapping,
the claim fails for a pathological variable name containing placeholder
delimiters. With a single variable whose name is the literal text of the
dollar placeholder of U, the template wrapping that name as a placeholder
contains an occurrence of the unknown placeholder of U (U itself is not a
key), yet the output x no longer contains it. -/
theorem c4_counterexample :
    replace_variables (dollarPlaceholder (dollarPlaceholder ['U']))
        [((dollarPlaceholder ['U']), some ['x'])] = .ok ['x'] ∧
    occursIn (dollarPlaceholder ['U'])
      (dollarPlaceholder (dollarPlaceholder ['U'])) = true ∧
    occursIn (dollarPlaceholder ['U']) ['x'] = false ∧
    ∀ nv ∈ ([((dollarPlaceholder ['U'] : Str), (some ['x'] : PyVal))] :
        List (Str × PyVal)), nv.1 ≠ (['U'] : Str) :=
  ⟨rfl, rfl, rfl, by decide⟩

/-- Claim C4 amended: provided that every variable name and the unknown
name avoid the three delimiter characters, that the unknown name differs
from every mapped name, and that every value is backslash-free (so the
engine raises no error and completes), an unknown-name placeholder of
either syntax occurring in the template still occurs verbatim in the
output. -/
theorem c4_unknown_placeholders_survive (template U : Str)
    (vars : List (Str × PyVal)) (hU : cleanName U = true)
    (hnames : ∀ nv ∈ vars, cleanName nv.1 = true ∧ nv.1 ≠ U)
    (hvals : allValsNoBackslash vars = true) :
    ∃ out, replace_variables template vars = .ok out ∧
      (occursIn (dollarPlaceholder U) template = true →
        occursIn (dollarPlaceholder U) out = true) ∧
      (occursIn (bracePlaceholder U) template = true →
        occursIn (bracePlaceholder U) out = true) := by
  obtain ⟨out, h1, h2, h3⟩ :=
    unknown_placeholder_survives template U vars hU hnames hvals
  refine ⟨out, h1, ?_, ?_⟩
  · intro h
    exact (occursIn_iff _ _).mpr (h2 ((occursIn_iff _ _).mp h))
  · intro h
    exact (occursIn_iff _ _).mpr (h3 ((occursIn_iff _ _).mp h))

/-- Witness for the amended C4 at a concrete template holding unknown
placeholders of both syntaxes next to a known one. -/
theorem c4_unknown_placeholders_survive_witness :
    ∃ out, replace_variables
        (dollarPlaceholder ['U'] ++ bracePlaceholder ['U'] ++
          dollarPlaceholder ['A'])
        [((['A'] : Str), (some ['v'] : PyVal))] = .ok out ∧
      (occursIn (dollarPlaceholder ['U'])
          (dollarPlaceholder ['U'] ++ bracePlaceholder ['U'] ++
            dollarPlaceholder ['A']) = true →
        occursIn (dollarPlaceholder ['U']) out = true) ∧
      (occursIn (bracePlaceholder ['U'])
          (dollarPlaceholder ['U'] ++ bracePlaceholder ['U'] ++
            dollarPlaceholder ['A']) = true →
        occursIn (bracePlaceholder ['U']) out = true) :=
  c4_unknown_placeholders_survive _ ['U'] _ (by decide) (by decide) (by decide)

/-- Claim C9 counterexample: with duplicate headers the first column name
is a key of the mapping: headers f,f give the mapping key f (valued by
the second column), and a template placeholder naming the first column is
substituted rather than left alone. -/
theorem c9_counterexample :
    buildVars [['f'], ['f']] [['a'], ['b']] = [(['f'], some ['b'])] ∧
    replace_variables (dollarPlaceholder ['f'])
        (buildVars [['f'], ['f']] [['a'], ['b']]) = .ok ['b'] ∧
    (['b'] : Str) ≠ dollarPlaceholder ['f'] :=
  ⟨rfl, rfl, by decide⟩

/-- Claim C9 amended: the keys of the variable mapping are exactly the
distinct non-first column names in first-occurrence order; when the first
column name does not also occur among the later columns it is not a key
of the mapping, and (for clean column names and backslash-free values) a
template placeholder naming the first column survives substitution
verbatim. -/
theorem c9_filename_column_not_substituted (template f : Str)
    (hs : List Str) (row : List Str) (hnotin : f ∉ hs)
    (hclean : cleanName f = true)
    (hcleanAll : ∀ c ∈ hs, cleanName c = true)
    (hvals : allValsNoBackslash (buildVars (f :: hs) row) = true) :
    ((buildVars (f :: hs) row).map Prod.fst = dedupFirst hs) ∧
    (∀ nv ∈ buildVars (f :: hs) row, nv.1 ≠ f) ∧
    (∃ out, replace_variables template (buildVars (f :: hs) row) = .ok out ∧
      (occursIn (dollarPlaceholder f) template = true →
        occursIn (dollarPlaceholder f) out = true)) := by
  have hkeys : (buildVars (f :: hs) row).map Prod.fst = dedupFirst hs :=
    buildVars_keys (f :: hs) row
  have hmem : ∀ nv ∈ buildVars (f :: hs) row, nv.1 ≠ f := by
    intro nv hnv heq
    have h1 : nv.1 ∈ (buildVars (f :: hs) row).map Prod.fst :=
      List.mem_map_of_mem _ hnv
    rw [hkeys] at h1
    have h2 := mem_dedupFirst _ _ h1
    rw [heq] at h2
    exact hnotin h2
  refine ⟨hkeys, hmem, ?_⟩
  have hnames : ∀ nv ∈ buildVars (f :: hs) row,
      cleanName nv.1 = true ∧ nv.1 ≠ f := by
    intro nv hnv
    refine ⟨?_, hmem nv hnv⟩
    have h1 : nv.1 ∈ (buildVars (f :: hs) row).map Prod.fst :=
      List.mem_map_of_mem _ hnv
    rw [hkeys] at h1
    exact hcleanAll _ (mem_dedupFirst _ _ h1)
  obtain ⟨out, h1, h2, _⟩ := unknown_placeholder_survives template f
    (buildVars (f :: hs) row) hclean hnames hvals
  exact ⟨out, h1, fun h =>
    (occursIn_iff _ _).mpr (h2 ((occursIn_iff _ _).mp h))⟩

/-- Witness for the amended C9 at concrete headers f,A and a data row. -/
theorem c9_filename_column_not_substituted_witness :
    ((buildVars [['f'], ['A']] [['x'], ['y']]).map Prod.fst =
      dedupFirst [['A']]) ∧
    (∀ nv ∈ buildVars [['f'], ['A']] [['x'], ['y']],
      nv.1 ≠ (['f'] : Str)) ∧
    (∃ out, replace_variables (dollarPlaceholder ['f'])
        (buildVars [['f'], ['A']] [['x'], ['y']]) = .ok out ∧
      (occursIn (dollarPlaceholder ['f']) (dollarPlaceholder ['f']) = true →
        occursIn (dollarPlaceholder ['f']) out = true)) :=
  c9_filename_column_not_substituted (dollarPlaceholder ['f']) ['f'] [['A']]
    [['x'], ['y']] (by decide) (by decide) (by decide) (by decide)
